import Mathlib

/-!
Verification of the audio streaming/encoding pipeline of the
pollinations-ai-text-generation repository: the playback buffer
(`PCMProcessor.process`), the WAV encoder (`bufferToWav`), the
linear-interpolation resampler (`resampleFloat32`), the PCM16→Float32
converter (`convertPCM16ToFloat32`), and the float→PCM16 conversion of
`writeWav` in `wav-worker.js`.

Samples are modelled as rationals (the JavaScript code works in IEEE
doubles on Float32 data; on the operations verified here — copying,
scaling by 32768/32767, division by 32768 — the double computation is
exact, so the rational model is faithful).  Bytes are naturals < 256,
16-bit signed samples are integers.
-/

namespace AudioPipeline

/-! ### JavaScript numeric primitives -/

/-- JavaScript `Math.round`: rounds half-way cases toward +∞,
i.e. `Math.round x = ⌊x + 1/2⌋`. -/
def jsRound (q : ℚ) : ℤ := ⌊q + 1/2⌋

/-- Truncation toward zero of a rational, as performed by the
ECMAScript `ToIntegerOrInfinity`/`truncate` step. -/
def ratTrunc (q : ℚ) : ℤ := if 0 ≤ q then ⌊q⌋ else ⌈q⌉

/-- ECMAScript `ToInt16`, applied when a number is stored into an
`Int16Array`: truncate toward zero, reduce modulo 2^16, then map into
the signed range [-32768, 32767]. -/
def jsToInt16 (q : ℚ) : ℤ :=
  if (ratTrunc q) % 65536 < 32768 then (ratTrunc q) % 65536
  else (ratTrunc q) % 65536 - 65536

/-- Little-endian byte pair of a 16-bit value, as written by
`DataView.setUint16(_, x, true)` (which reduces x mod 2^16). -/
def u16le (x : ℕ) : List ℕ := [x % 256, x / 256 % 256]

/-- Little-endian bytes of a 32-bit value, as written by
`DataView.setUint32(_, x, true)` (which reduces x mod 2^32). -/
def u32le (x : ℕ) : List ℕ :=
  [x % 256, x / 256 % 256, x / 65536 % 256, x / 16777216 % 256]

/-- Read back an unsigned little-endian 16-bit value from a byte list. -/
def readU16 (bytes : List ℕ) (off : ℕ) : ℕ :=
  bytes.getD off 0 + 256 * bytes.getD (off + 1) 0

/-- Read back an unsigned little-endian 32-bit value from a byte list. -/
def readU32 (bytes : List ℕ) (off : ℕ) : ℕ :=
  bytes.getD off 0 + 256 * bytes.getD (off + 1) 0 +
    65536 * bytes.getD (off + 2) 0 + 16777216 * bytes.getD (off + 3) 0

/-- `DataView.getInt16(_, _, true)` on two bytes: little-endian unsigned
value reinterpreted as a signed 16-bit integer. -/
def int16OfBytes (b0 b1 : ℕ) : ℤ :=
  if (b0 : ℤ) + 256 * (b1 : ℤ) < 32768 then (b0 : ℤ) + 256 * (b1 : ℤ)
  else (b0 : ℤ) + 256 * (b1 : ℤ) - 65536

/-- Decode consecutive little-endian signed 16-bit samples from a byte
list (the loop of `convertPCM16ToFloat32`). -/
def bytesToInt16s : List ℕ → List ℤ
  | b0 :: b1 :: rest => int16OfBytes b0 b1 :: bytesToInt16s rest
  | _ => []

theorem bytesToInt16s_nil : bytesToInt16s [] = [] := rfl

theorem bytesToInt16s_single (b : ℕ) : bytesToInt16s [b] = [] := rfl

theorem bytesToInt16s_cons (b0 b1 : ℕ) (rest : List ℕ) :
    bytesToInt16s (b0 :: b1 :: rest) =
      int16OfBytes b0 b1 :: bytesToInt16s rest := rfl

/-! ### Playback buffer (`PCMProcessor` in the audio worklet) -/

/-- State of the `PCMProcessor` audio worklet: a queue of pushed chunks
(`bufferQueue`), a contiguous staging buffer (`buffer`), and the flag
set when the `"STOP"` message has been received (`shouldStop`). -/
structure PCMState where
  bufferQueue : List (List ℚ)
  buffer : List ℚ
  shouldStop : Bool
  deriving Repr, DecidableEq

/-- Initial `PCMProcessor` state (constructor). -/
def PCMState.initial : PCMState := ⟨[], [], false⟩

/-- `port.onmessage` with a data chunk: appends the chunk to the queue. -/
def PCMState.push (st : PCMState) (chunk : List ℚ) : PCMState :=
  { st with bufferQueue := st.bufferQueue ++ [chunk] }

/-- `port.onmessage` with `"STOP"`: marks that no more chunks arrive. -/
def PCMState.signalEnd (st : PCMState) : PCMState :=
  { st with shouldStop := true }

/-- The `while` loop of `PCMProcessor.process`: shift chunks from the
queue into the contiguous buffer while it holds fewer than `n` samples
and the queue is nonempty. -/
def refill (n : ℕ) : List ℚ → List (List ℚ) → List ℚ × List (List ℚ)
  | buf, [] => (buf, [])
  | buf, c :: rest =>
      if buf.length < n then refill n (buf ++ c) rest else (buf, c :: rest)

/-- `PCMProcessor.process` for one output block of `n` samples: refill
from the queue, emit `n` samples (buffered data first, zero-filling any
shortfall), and return the emitted block, the new state and the
`process` return value (`true` to keep running, `false` to stop). -/
def PCMState.process (st : PCMState) (n : ℕ) : List ℚ × PCMState × Bool :=
  let bq := refill n st.buffer st.bufferQueue
  let buf := bq.1
  let queue := bq.2
  let ob :=
    if n ≤ buf.length then (buf.take n, buf.drop n)
    else if 0 < buf.length then (buf ++ List.replicate (n - buf.length) 0, [])
    else (List.replicate n 0, [])
  let st' : PCMState := ⟨queue, ob.2, st.shouldStop⟩
  let keepGoing : Bool :=
    !(st.shouldStop && queue.isEmpty && ob.2.isEmpty)
  (ob.1, st', keepGoing)

/-! ### WAV encoder (`bufferToWav` in `audio-utils.js`) -/

/-- The padded payload length produced by `bufferToWav` on even-length
input: `missingSamples = (sampleRate - (len/sampleSize) % sampleRate) %
sampleRate` zero samples times `numChannels * sampleSize` bytes. -/
def paddedLength (len sampleRate numChannels sampleSize : ℕ) : ℕ :=
  let expectedSamples := len / sampleSize
  let remainder := expectedSamples % sampleRate
  let missingSamples := (sampleRate - remainder) % sampleRate
  len + missingSamples * numChannels * sampleSize

/-- The 44-byte RIFF/WAVE header of `bufferToWav`, field by field in
write order (`writeString`/`setUint32`/`setUint16` at offsets 0..43). -/
def wavHeader (dataSize sampleRate numChannels sampleSize bitsPerSample : ℕ) :
    List ℕ :=
  [82, 73, 70, 70] ++                                -- 'RIFF'
  u32le (44 + dataSize - 8) ++                       -- ChunkSize = totalSize-8
  [87, 65, 86, 69] ++                                -- 'WAVE'
  [102, 109, 116, 32] ++                             -- 'fmt '
  u32le 16 ++                                        -- Subchunk1Size
  u16le 1 ++                                         -- AudioFormat (PCM)
  u16le numChannels ++                               -- NumChannels
  u32le sampleRate ++                                -- SampleRate
  u32le (sampleRate * numChannels * sampleSize) ++   -- ByteRate
  u16le (numChannels * sampleSize) ++                -- BlockAlign
  u16le bitsPerSample ++                             -- BitsPerSample
  [100, 97, 116, 97] ++                              -- 'data'
  u32le dataSize                                     -- Subchunk2Size

/-- `bufferToWav`: trims a trailing odd byte, pads with zero bytes to
the sample-rate boundary, and prepends the 44-byte header. -/
def bufferToWav (combinedChunks : List ℕ) (sampleRate numChannels
    bitsPerSample : ℕ) : List ℕ :=
  let chunks :=
    if combinedChunks.length % 2 ≠ 0 then combinedChunks.dropLast
    else combinedChunks
  let sampleSize := bitsPerSample / 8
  let dataSize := paddedLength chunks.length sampleRate numChannels sampleSize
  let paddedData := chunks ++ List.replicate (dataSize - chunks.length) 0
  wavHeader dataSize sampleRate numChannels sampleSize bitsPerSample ++
    paddedData

/-! ### Resampler (`resampleFloat32` in `audio-utils.js`) -/

/-- Array read with an explicit out-of-bounds branch: `inputArray[i]`
for a possibly negative index.  The fallback value 0 stands for the
out-of-bounds (`undefined`) result; claim C10 shows it is unreachable. -/
def getQ (l : List ℚ) (i : ℤ) : ℚ :=
  if h : 0 ≤ i ∧ i.toNat < l.length then l.get ⟨i.toNat, h.2⟩ else 0

/-- `index0 = Math.floor(i / ratio)` for output index `i`. -/
def resampleIndex0 (i : ℕ) (ratio : ℚ) : ℤ := ⌊(i : ℚ) / ratio⌋

/-- `index1 = Math.min(index0 + 1, inputArray.length - 1)`. -/
def resampleIndex1 (i : ℕ) (ratio : ℚ) (len : ℕ) : ℤ :=
  min (resampleIndex0 i ratio + 1) ((len : ℤ) - 1)

/-- `resampleFloat32`: identity when the rates are equal, else linear
interpolation at fractional source positions `i / ratio`, with output
length `Math.round(inputArray.length * ratio)`. -/
def resampleFloat32 (inputArray : List ℚ) (originalRate targetRate : ℚ) :
    List ℚ :=
  if originalRate = targetRate then inputArray
  else
    let ratio := targetRate / originalRate
    let newLength := (jsRound ((inputArray.length : ℚ) * ratio)).toNat
    (List.range newLength).map fun (i : ℕ) =>
      let srcIndex : ℚ := (i : ℚ) / ratio
      let index0 := resampleIndex0 i ratio
      let index1 := resampleIndex1 i ratio inputArray.length
      let t : ℚ := srcIndex - (index0 : ℚ)
      (1 - t) * getQ inputArray index0 + t * getQ inputArray index1

/-! ### PCM16 → Float32 converter (`convertPCM16ToFloat32`) -/

/-- The decode loop of `convertPCM16ToFloat32`: each little-endian
signed 16-bit sample divided by 32768.0. -/
def pcm16ToFloats (pcmData : List ℕ) : List ℚ :=
  (bytesToInt16s pcmData).map fun (x : ℤ) => (x : ℚ) / 32768

/-- `convertPCM16ToFloat32`: empty result on odd byte length, otherwise
decode to floats and resample to the target rate. -/
def convertPCM16ToFloat32 (pcmData : List ℕ)
    (originalSampleRate targetSampleRate : ℚ) : List ℚ :=
  if pcmData.length % 2 ≠ 0 then []
  else resampleFloat32 (pcm16ToFloats pcmData) originalSampleRate
    targetSampleRate

/-! ### Float → PCM16 conversion of `writeWav` (`wav-worker.js`) -/

/-- One sample of the `writeWav` conversion loop:
`s = Math.max(-1, Math.min(1, v)); output[j] = s < 0 ? s * 0x8000 :
s * 0x7FFF` stored into an `Int16Array` (ECMAScript `ToInt16`). -/
def fromFloatSample (v : ℚ) : ℤ :=
  let s := max (-1) (min 1 v)
  jsToInt16 (if s < 0 then s * 32768 else s * 32767)

/-- The whole `writeWav` sample-conversion loop on one channel. -/
def fromFloats (channel : List ℚ) : List ℤ := channel.map fromFloatSample

/-! ### Lemmas about `refill` -/

/-- Refilling moves samples between queue and buffer but neither loses
nor reorders them. -/
theorem refill_flatten (n : ℕ) (buf : List ℚ) (queue : List (List ℚ)) :
    (refill n buf queue).1 ++ ((refill n buf queue).2).flatten =
      buf ++ queue.flatten := by
  induction queue generalizing buf with
  | nil => simp [refill]
  | cons c rest ih =>
      by_cases h : buf.length < n
      · simpa [refill, h, List.append_assoc] using ih (buf ++ c)
      · simp [refill, h]

/-- If the refilled buffer still holds fewer than `n` samples, the
queue has been fully drained. -/
theorem refill_exhausts (n : ℕ) (buf : List ℚ) (queue : List (List ℚ)) :
    (refill n buf queue).1.length < n → (refill n buf queue).2 = [] := by
  induction queue generalizing buf with
  | nil => intro _; rfl
  | cons c rest ih =>
      by_cases h : buf.length < n
      · intro hlt
        simp only [refill, if_pos h] at hlt ⊢
        exact ih (buf ++ c) hlt
      · intro hlt
        simp only [refill, if_neg h] at hlt
        omega

/-- Every pull emits `(buffered data).take n` padded with zeros. -/
theorem process_output (st : PCMState) (n : ℕ) :
    (st.process n).1 =
      (st.buffer ++ st.bufferQueue.flatten).take n ++
        List.replicate (n - (st.buffer ++ st.bufferQueue.flatten).length) 0 := by
  have hflat := refill_flatten n st.buffer st.bufferQueue
  by_cases h1 : n ≤ (refill n st.buffer st.bufferQueue).1.length
  · have hlen : n ≤ (st.buffer ++ st.bufferQueue.flatten).length := by
      rw [← hflat]; simp only [List.length_append]; omega
    have h0 : n - (st.buffer ++ st.bufferQueue.flatten).length = 0 := by omega
    rw [h0]
    simp only [PCMState.process, if_pos h1, List.replicate_zero,
      List.append_nil]
    rw [← hflat, List.take_append_of_le_length h1]
  · have hq : (refill n st.buffer st.bufferQueue).2 = [] :=
      refill_exhausts n st.buffer st.bufferQueue (by omega)
    have htot : st.buffer ++ st.bufferQueue.flatten =
        (refill n st.buffer st.bufferQueue).1 := by
      rw [← hflat, hq]; simp
    by_cases h2 : 0 < (refill n st.buffer st.bufferQueue).1.length
    · simp only [PCMState.process, if_neg h1, if_pos h2, htot]
      rw [List.take_of_length_le (by omega)]
    · have hnil : (refill n st.buffer st.bufferQueue).1 = [] :=
        List.length_eq_zero.mp (by omega)
      have hn : ¬ n = 0 := by
        rw [hnil] at h1; simpa using h1
      simp only [PCMState.process, if_neg h1, hnil, htot]
      simp [hn]

/-- C1. For every state (hence every sequence of pushed chunks) and
every pull of `n` samples, `process` returns exactly `n` samples: the
longest available prefix of the buffered data in push order, zero-filled
for any shortfall; pulling `n ≤ L` right after pushing a chunk of
length `L` into an empty buffer returns its first `n` samples, and
pushing 50 samples then pulling 80 returns them followed by 30 zeros. -/
theorem pull_returns_prefix_then_zeros :
    (∀ (st : PCMState) (n : ℕ),
      (st.process n).1.length = n ∧
      (st.process n).1 =
        (st.buffer ++ st.bufferQueue.flatten).take n ++
          List.replicate (n - (st.buffer ++ st.bufferQueue.flatten).length) 0) ∧
    (∀ (c : List ℚ) (n : ℕ), n ≤ c.length →
      ((PCMState.initial.push c).process n).1 = c.take n) ∧
    (∀ c : List ℚ, c.length = 50 →
      ((PCMState.initial.push c).process 80).1 = c ++ List.replicate 30 0) := by
  have hout := process_output
  have hlen : ∀ (st : PCMState) (n : ℕ), (st.process n).1.length = n := by
    intro st n
    rw [hout st n]
    simp only [List.length_append, List.length_take, List.length_replicate]
    omega
  refine ⟨fun st n => ⟨hlen st n, hout st n⟩, ?_, ?_⟩
  · intro c n hn
    rw [hout]
    simp only [PCMState.initial, PCMState.push, List.nil_append,
      List.flatten_cons, List.flatten_nil, List.append_nil]
    have h0 : n - c.length = 0 := by omega
    rw [h0]
    simp
  · intro c hc
    rw [hout]
    simp only [PCMState.initial, PCMState.push, List.nil_append,
      List.flatten_cons, List.flatten_nil, List.append_nil]
    rw [hc, List.take_of_length_le (by omega)]

/-- Witness for C1 at a concrete input: pushing a specific 50-sample
chunk and pulling 80 yields the chunk followed by 30 zeros. -/
theorem pull_returns_prefix_then_zeros_witness :
    ((PCMState.initial.push (List.replicate 50 (1 : ℚ))).process 80).1 =
      List.replicate 50 (1 : ℚ) ++ List.replicate 30 0 :=
  pull_returns_prefix_then_zeros.2.2 _ (by simp)

/-- C7. `process` signals the terminal marker (returns `false`) exactly
when the stop flag is set and, after the pull has drained what it can
into the current block, both the chunk queue and the contiguous buffer
are empty; before `signalEnd` it always returns `true`. -/
theorem terminal_marker_iff_drained :
    ∀ (st : PCMState) (n : ℕ),
      ((st.process n).2.2 = false ↔
        st.shouldStop = true ∧ (st.process n).2.1.bufferQueue = [] ∧
          (st.process n).2.1.buffer = []) ∧
      (st.shouldStop = false → (st.process n).2.2 = true) := by
  intro st n
  simp only [PCMState.process]
  cases hstop : st.shouldStop <;>
    simp [List.isEmpty_iff]

/-- Witness for C7 at a concrete input: before `signalEnd`, a pull on
the empty initial state keeps the processor running. -/
theorem terminal_marker_iff_drained_witness :
    (PCMState.initial.process 128).2.2 = true :=
  (terminal_marker_iff_drained PCMState.initial 128).2 rfl

/-! ### WAV encoder theorems -/

/-- On even-length input, `bufferToWav` is the header followed by the
input and its zero padding. -/
theorem bufferToWav_even_split (data : List ℕ) (R C B : ℕ)
    (heven : data.length % 2 = 0) :
    bufferToWav data R C B =
      wavHeader (paddedLength data.length R C (B / 8)) R C (B / 8) B ++
        (data ++
          List.replicate (paddedLength data.length R C (B / 8) - data.length)
            0) := by
  simp [bufferToWav, heven]

/-- The input length never exceeds the padded length. -/
theorem le_paddedLength (len R C s : ℕ) : len ≤ paddedLength len R C s :=
  Nat.le_add_right _ _

/-- The header is 44 bytes long. -/
theorem wavHeader_length (D R C s b : ℕ) : (wavHeader D R C s b).length = 44 := by
  simp [wavHeader, u32le, u16le]

/-- C2. For every even-length PCM input, in-range sample rate and
channel count, and `bitsPerSample = 16`, the encoder output is exactly
`44 + paddedDataLength` bytes, and the 44-byte header holds
`ChunkSize = totalLength - 8`, `Subchunk1Size = 16`, `AudioFormat = 1`,
`NumChannels`, `SampleRate`, `ByteRate = sampleRate*channels*2`,
`BlockAlign = channels*2`, `BitsPerSample = 16` and
`Subchunk2Size = dataLength`, so re-parsing recovers the sample rate,
channel count and bits per sample. -/
theorem wav_header_fields (data : List ℕ) (R C : ℕ)
    (heven : data.length % 2 = 0)
    (hR : R < 4294967296)
    (hBR : R * C * 2 < 4294967296)
    (hBA : C * 2 < 65536)
    (hD : paddedLength data.length R C 2 + 36 < 4294967296) :
    (bufferToWav data R C 16).length = 44 + paddedLength data.length R C 2 ∧
    readU32 (bufferToWav data R C 16) 4 =
      (44 + paddedLength data.length R C 2) - 8 ∧
    readU32 (bufferToWav data R C 16) 16 = 16 ∧
    readU16 (bufferToWav data R C 16) 20 = 1 ∧
    readU16 (bufferToWav data R C 16) 22 = C ∧
    readU32 (bufferToWav data R C 16) 24 = R ∧
    readU32 (bufferToWav data R C 16) 28 = R * C * 2 ∧
    readU16 (bufferToWav data R C 16) 32 = C * 2 ∧
    readU16 (bufferToWav data R C 16) 34 = 16 ∧
    readU32 (bufferToWav data R C 16) 40 = paddedLength data.length R C 2 := by
  have hle := le_paddedLength data.length R C 2
  rw [bufferToWav_even_split data R C 16 heven]
  norm_num only
  refine ⟨?_, ?_, ?_, ?_, ?_, ?_, ?_, ?_, ?_, ?_⟩ <;>
    simp only [wavHeader, u32le, u16le, readU16, readU32, List.cons_append,
      List.nil_append, List.append_assoc, List.getD_cons_succ,
      List.getD_cons_zero, List.length_append, List.length_cons,
      List.length_replicate, List.length_nil] <;>
    omega

/-- Witness for C2 at a concrete input: two zero bytes at 2 Hz mono. -/
theorem wav_header_fields_witness :
    (bufferToWav [0, 0] 2 1 16).length = 44 + paddedLength 2 2 1 2 ∧
    readU16 (bufferToWav [0, 0] 2 1 16) 22 = 1 ∧
    readU32 (bufferToWav [0, 0] 2 1 16) 24 = 2 ∧
    readU16 (bufferToWav [0, 0] 2 1 16) 34 = 16 := by
  have h := wav_header_fields [0, 0] 2 1 (by decide) (by decide) (by decide)
    (by decide) (by decide)
  exact ⟨h.1, h.2.2.2.2.1, h.2.2.2.2.2.1, h.2.2.2.2.2.2.2.2.1⟩

/-- Counterexample to C4: with 2 channels (4 bytes at 4 Hz) the padded
payload is 12 bytes, which is neither the smallest multiple of
`sampleRate*channelCount*bytesPerSample = 16` at least the input length
(that would be 16) nor even a multiple of it. -/
theorem wav_padding_stereo_counterexample :
    (bufferToWav [0, 0, 0, 0] 4 2 16).length - 44 = 12 ∧
    paddedLength 4 4 2 2 = 12 ∧ ¬ (4 * 2 * 2 ∣ 12) ∧ (12 : ℕ) ≠ 16 := by
  decide

/-- C4 (amended): for mono input the padded payload length is the least
multiple of `sampleRate*1*2` at least the input length, and for every
channel count the encoder never truncates — the input appears unchanged
as a prefix of the payload. -/
theorem wav_padding_whole_second_mono (data : List ℕ) (R : ℕ)
    (heven : data.length % 2 = 0) (hR : 0 < R) :
    R * 1 * 2 ∣ paddedLength data.length R 1 2 ∧
    data.length ≤ paddedLength data.length R 1 2 ∧
    (∀ m : ℕ, R * 1 * 2 ∣ m → data.length ≤ m →
      paddedLength data.length R 1 2 ≤ m) ∧
    (∀ C : ℕ, data <+: (bufferToWav data R C 16).drop 44) := by
  obtain ⟨S, hS⟩ : ∃ S, data.length = 2 * S := ⟨data.length / 2, by omega⟩
  have hhalf : data.length / 2 = S := by omega
  have hplen : paddedLength data.length R 1 2 =
      data.length + (R - S % R) % R * 1 * 2 := by
    simp only [paddedLength, hhalf]
  have hr : S % R < R := Nat.mod_lt _ hR
  have hqr : R * (S / R) + S % R = S := Nat.div_add_mod S R
  rcases Nat.eq_zero_or_pos (S % R) with h0 | hpos
  · -- the sample count already sits on a whole-second boundary
    have hP : paddedLength data.length R 1 2 = 2 * S := by
      rw [hplen, h0, Nat.sub_zero, Nat.mod_self]
      omega
    obtain ⟨t, ht⟩ : R ∣ S := Nat.dvd_of_mod_eq_zero h0
    refine ⟨⟨t, by rw [hP, ht]; ring⟩, by omega, ?_, ?_⟩
    · intro m _ hm
      omega
    · intro C
      rw [bufferToWav_even_split data R C 16 heven]
      rw [show (44 : ℕ) = (wavHeader (paddedLength data.length R C (16 / 8)) R
        C (16 / 8) 16).length from (wavHeader_length _ _ _ _ _).symm]
      rw [List.drop_left]
      exact ⟨_, rfl⟩
  · -- a partial second gets filled up
    have hmlt : (R - S % R) % R = R - S % R := Nat.mod_eq_of_lt (by omega)
    have hP : paddedLength data.length R 1 2 =
        2 * (R * (S / R)) + 2 * R := by
      rw [hplen, hmlt]; omega
    refine ⟨⟨S / R + 1, by rw [hP]; ring⟩, by omega, ?_, ?_⟩
    · intro m hdvd hm
      obtain ⟨k, hk⟩ := hdvd
      have hm2 : m = 2 * (R * k) := by rw [hk]; ring
      have hk1 : S / R + 1 ≤ k := by
        by_contra hle
        push_neg at hle
        have h1 : R * k ≤ R * (S / R) := Nat.mul_le_mul_left R (by omega)
        omega
      have h2 : R * (S / R + 1) ≤ R * k := Nat.mul_le_mul_left R hk1
      rw [Nat.mul_add, Nat.mul_one] at h2
      omega
    · intro C
      rw [bufferToWav_even_split data R C 16 heven]
      rw [show (44 : ℕ) = (wavHeader (paddedLength data.length R C (16 / 8)) R
        C (16 / 8) 16).length from (wavHeader_length _ _ _ _ _).symm]
      rw [List.drop_left]
      exact ⟨_, rfl⟩

/-- Witness for C4's amended theorem at a concrete input. -/
theorem wav_padding_whole_second_mono_witness :
    2 * 1 * 2 ∣ paddedLength 2 2 1 2 ∧
    paddedLength 2 2 1 2 ≤ 4 ∧
    [0, 0] <+: (bufferToWav [0, 0] 2 5 16).drop 44 := by
  have h := wav_padding_whole_second_mono [0, 0] 2 (by decide) (by decide)
  exact ⟨h.1, h.2.2.1 4 (by decide) (by decide), h.2.2.2 5⟩

/-- C9. On odd-length input the encoder does not fail: it produces the
same output as encoding the input without its final byte. -/
theorem wav_odd_trims_last (data : List ℕ) (R C B : ℕ)
    (hodd : data.length % 2 = 1) :
    bufferToWav data R C B = bufferToWav data.dropLast R C B := by
  have h1 : data.length % 2 ≠ 0 := by omega
  have h2 : ¬ data.dropLast.length % 2 ≠ 0 := by
    rw [List.length_dropLast]; omega
  simp only [bufferToWav, if_pos h1, if_neg h2]

/-- Witness for C9 at a concrete input: a single stray byte encodes as
the empty input does. -/
theorem wav_odd_trims_last_witness :
    bufferToWav [7] 2 1 16 = bufferToWav (List.dropLast [7]) 2 1 16 :=
  wav_odd_trims_last [7] 2 1 16 rfl

/-! ### PCM16 → Float32 converter theorems -/

/-- The decoder yields one sample per byte pair. -/
theorem bytesToInt16s_length : ∀ l : List ℕ,
    (bytesToInt16s l).length = l.length / 2
  | [] => by simp [bytesToInt16s_nil]
  | [_] => by simp [bytesToInt16s_single]
  | b0 :: b1 :: rest => by
      simp only [bytesToInt16s_cons, List.length_cons,
        bytesToInt16s_length rest]
      omega

/-- C8. An odd byte length yields the empty (non-fatal) result; an
even length always takes the conversion path, and — with equal rates,
so that length is the only thing that could fail — a nonempty
even-length input never produces the empty-failure result. -/
theorem convert_odd_length_empty :
    ∀ (pcmData : List ℕ) (R T : ℚ),
      (pcmData.length % 2 ≠ 0 → convertPCM16ToFloat32 pcmData R T = []) ∧
      (pcmData.length % 2 = 0 → convertPCM16ToFloat32 pcmData R T =
        resampleFloat32 (pcm16ToFloats pcmData) R T) ∧
      (pcmData.length % 2 = 0 → pcmData ≠ [] →
        convertPCM16ToFloat32 pcmData R R ≠ []) := by
  intro pcmData R T
  refine ⟨fun hodd => by simp [convertPCM16ToFloat32, hodd],
    fun heven => by simp [convertPCM16ToFloat32, heven], ?_⟩
  intro heven hne
  have hres : convertPCM16ToFloat32 pcmData R R = pcm16ToFloats pcmData := by
    simp [convertPCM16ToFloat32, heven, resampleFloat32]
  rw [hres]
  have hlen : (pcm16ToFloats pcmData).length = pcmData.length / 2 := by
    simp only [pcm16ToFloats, List.length_map, bytesToInt16s_length]
  intro hempty
  rw [hempty] at hlen
  have : pcmData.length ≠ 0 := fun h => hne (List.length_eq_zero.mp h)
  simp at hlen
  omega

/-- Witness for C8 at concrete inputs: one stray byte gives the empty
result, two bytes do not. -/
theorem convert_odd_length_empty_witness :
    convertPCM16ToFloat32 [0] 2 3 = [] ∧
    convertPCM16ToFloat32 [0, 0] 2 2 ≠ [] := by
  refine ⟨(convert_odd_length_empty [0] 2 3).1 (by decide), ?_⟩
  exact (convert_odd_length_empty [0, 0] 2 2).2.2 rfl (by decide)

/-! ### Float → PCM16 conversion theorems -/

/-- The float-to-PCM16 conversion as the spec words it, with rounding
in place of the code's truncation; claim C3 is decided against it. -/
def fromFloatSampleRounded (v : ℚ) : ℤ :=
  let c := max (-1) (min 1 v)
  if v < 0 then jsRound (c * 32768) else jsRound (c * 32767)

/-- The float-to-PCM16 conversion as amended: truncation toward zero
instead of rounding, stated from the spec's wording otherwise. -/
def fromFloatSampleTrunc (v : ℚ) : ℤ :=
  let c := max (-1) (min 1 v)
  if v < 0 then ratTrunc (c * 32768) else ratTrunc (c * 32767)

unseal Rat.add Rat.mul Rat.inv Rat.sub in
/-- Counterexample to C3: at `v = 1/2` the code stores
`trunc(0.5 * 32767) = 16383` while rounding would give 16384. -/
theorem fromFloat_rounding_counterexample :
    fromFloatSample (1 / 2) = 16383 ∧
    fromFloatSampleRounded (1 / 2) = 16384 ∧
    fromFloatSample (1 / 2) ≠ fromFloatSampleRounded (1 / 2) := by
  refine ⟨?_, ?_, ?_⟩ <;> decide

/-- The clamped sample is negative exactly when the raw sample is. -/
theorem clamp_neg_iff (v : ℚ) : max (-1) (min 1 v) < 0 ↔ v < 0 := by
  constructor
  · intro h
    by_contra hv
    push_neg at hv
    have h1 : (0 : ℚ) ≤ min 1 v := le_min (by norm_num) hv
    have h2 : (0 : ℚ) ≤ max (-1) (min 1 v) := le_trans h1 (le_max_right _ _)
    linarith
  · intro hv
    have h1 : min 1 v = v := min_eq_right (by linarith)
    rcases le_or_lt (-1) v with h2 | h2
    · rw [h1, max_eq_right h2]; exact hv
    · rw [h1, max_eq_left (le_of_lt h2)]; norm_num

/-- `ToInt16` is plain truncation on values that truncate into the
signed 16-bit range. -/
theorem jsToInt16_eq_ratTrunc (q : ℚ) (h1 : -32768 ≤ ratTrunc q)
    (h2 : ratTrunc q ≤ 32767) : jsToInt16 q = ratTrunc q := by
  unfold jsToInt16
  split <;> omega

/-- C3 (amended). The conversion clamps to [-1, 1], scales by 32768 for
negative and 32767 for non-negative samples, and truncates toward zero
(not rounds); the result always lies in [-32768, 32767]. -/
theorem fromFloat_truncates (v : ℚ) :
    fromFloatSample v = fromFloatSampleTrunc v ∧
    -32768 ≤ fromFloatSample v ∧ fromFloatSample v ≤ 32767 := by
  have hc1 : -1 ≤ max (-1) (min 1 v) := le_max_left _ _
  have hc2 : max (-1) (min 1 v) ≤ 1 :=
    max_le (by norm_num) (min_le_left _ _)
  have hrange : -32768 ≤ fromFloatSampleTrunc v ∧
      fromFloatSampleTrunc v ≤ 32767 := by
    simp only [fromFloatSampleTrunc]
    by_cases hv : v < 0
    · rw [if_pos hv]
      have hneg : max (-1) (min 1 v) < 0 := (clamp_neg_iff v).mpr hv
      have hq1 : (-32768 : ℚ) ≤ max (-1) (min 1 v) * 32768 := by nlinarith
      have hq2 : max (-1) (min 1 v) * 32768 < 0 := by nlinarith
      simp only [ratTrunc, if_neg (not_le.mpr hq2)]
      constructor
      · calc (-32768 : ℤ) = ⌈((-32768 : ℤ) : ℚ)⌉ := (Int.ceil_intCast _).symm
          _ ≤ ⌈max (-1) (min 1 v) * 32768⌉ := Int.ceil_le_ceil (by push_cast; linarith)
      · have h0 : ⌈max (-1) (min 1 v) * 32768⌉ ≤ (0 : ℤ) :=
          Int.ceil_le.mpr (by push_cast; linarith)
        omega
    · rw [if_neg hv]
      push_neg at hv
      have hpos : 0 ≤ max (-1) (min 1 v) := by
        by_contra h
        push_neg at h
        exact absurd ((clamp_neg_iff v).mp h) (not_lt.mpr hv)
      have hq1 : (0 : ℚ) ≤ max (-1) (min 1 v) * 32767 := by nlinarith
      have hq2 : max (-1) (min 1 v) * 32767 ≤ 32767 := by nlinarith
      simp only [ratTrunc, if_pos hq1]
      constructor
      · have : (0 : ℤ) ≤ ⌊max (-1) (min 1 v) * 32767⌋ :=
          Int.floor_nonneg.mpr hq1
        omega
      · calc ⌊max (-1) (min 1 v) * 32767⌋ ≤ ⌊(32767 : ℚ)⌋ :=
            Int.floor_le_floor hq2
          _ = 32767 := by norm_num
  have heq : fromFloatSample v = fromFloatSampleTrunc v := by
    simp only [fromFloatSample, fromFloatSampleTrunc]
    by_cases hv : v < 0
    · rw [if_pos ((clamp_neg_iff v).mpr hv), if_pos hv]
      apply jsToInt16_eq_ratTrunc
      · have h := hrange.1
        simpa [fromFloatSampleTrunc, if_pos hv] using h
      · have h := hrange.2
        simpa [fromFloatSampleTrunc, if_pos hv] using h
    · have hnneg : ¬ max (-1) (min 1 v) < 0 := fun h =>
        hv ((clamp_neg_iff v).mp h)
      rw [if_neg hnneg, if_neg hv]
      apply jsToInt16_eq_ratTrunc
      · have h := hrange.1
        simpa [fromFloatSampleTrunc, if_neg hv] using h
      · have h := hrange.2
        simpa [fromFloatSampleTrunc, if_neg hv] using h
  exact ⟨heq, heq ▸ hrange.1, heq ▸ hrange.2⟩

/-- `ratTrunc` is the identity on integers. -/
theorem ratTrunc_intCast (x : ℤ) : ratTrunc (x : ℚ) = x := by
  unfold ratTrunc
  split <;> simp

/-- One sample decoded to float and re-encoded lands within one LSB
below the original: exactly `x` for `x ≤ 0` and `x - 1` for `x > 0`. -/
theorem roundtrip_sample (x : ℤ) (h1 : -32768 ≤ x) (h2 : x ≤ 32767) :
    x - 1 ≤ fromFloatSample ((x : ℚ) / 32768) ∧
    fromFloatSample ((x : ℚ) / 32768) ≤ x := by
  have h32 : (0 : ℚ) < 32768 := by norm_num
  have h1q : (-32768 : ℚ) ≤ (x : ℚ) := by exact_mod_cast h1
  have h2q : (x : ℚ) ≤ 32767 := by exact_mod_cast h2
  have hle1 : (-1 : ℚ) ≤ (x : ℚ) / 32768 := by
    rw [le_div_iff h32]
    linarith
  have hlt1 : (x : ℚ) / 32768 < 1 := by
    rw [div_lt_one h32]
    linarith
  have hmin : min 1 ((x : ℚ) / 32768) = (x : ℚ) / 32768 :=
    min_eq_right hlt1.le
  have hmax : max (-1) ((x : ℚ) / 32768) = (x : ℚ) / 32768 :=
    max_eq_right hle1
  simp only [fromFloatSample, hmin, hmax]
  by_cases hneg : (x : ℚ) / 32768 < 0
  · rw [if_pos hneg, div_mul_cancel₀ (x : ℚ) (by norm_num)]
    have htr : ratTrunc ((x : ℚ)) = x := ratTrunc_intCast x
    have hb1 : -32768 ≤ ratTrunc ((x : ℚ)) := by rw [htr]; omega
    have hb2 : ratTrunc ((x : ℚ)) ≤ 32767 := by rw [htr]; omega
    rw [jsToInt16_eq_ratTrunc _ hb1 hb2, htr]
    omega
  · rw [if_neg hneg]
    push_neg at hneg
    have hx0 : (0 : ℤ) ≤ x := by
      by_contra hx
      push_neg at hx
      have hxq : (x : ℚ) < 0 := by exact_mod_cast hx
      have : (x : ℚ) / 32768 < 0 := div_neg_of_neg_of_pos hxq h32
      linarith
    have hnn : (0 : ℚ) ≤ (x : ℚ) / 32768 * 32767 := by positivity
    rcases eq_or_lt_of_le hx0 with h0 | hpos
    · have hz : (x : ℚ) / 32768 * 32767 = 0 := by rw [← h0]; norm_num
      have hj : jsToInt16 (0 : ℚ) = 0 := by simp [jsToInt16, ratTrunc]
      rw [hz, hj]
      omega
    · have hposq : (0 : ℚ) < (x : ℚ) := by exact_mod_cast hpos
      have hfloor : ⌊(x : ℚ) / 32768 * 32767⌋ = x - 1 := by
        rw [Int.floor_eq_iff]
        constructor
        · rw [div_mul_eq_mul_div, le_div_iff h32]
          push_cast
          linarith
        · rw [div_mul_eq_mul_div, div_lt_iff h32]
          push_cast
          linarith
      have htr : ratTrunc ((x : ℚ) / 32768 * 32767) = x - 1 := by
        rw [ratTrunc, if_pos hnn, hfloor]
      have hb1 : -32768 ≤ ratTrunc ((x : ℚ) / 32768 * 32767) := by
        rw [htr]; omega
      have hb2 : ratTrunc ((x : ℚ) / 32768 * 32767) ≤ 32767 := by
        rw [htr]; omega
      rw [jsToInt16_eq_ratTrunc _ hb1 hb2, htr]
      omega

/-- A decoded sample of two in-range bytes lies in the 16-bit range. -/
theorem int16OfBytes_range (b0 b1 : ℕ) (h0 : b0 < 256) (h1 : b1 < 256) :
    -32768 ≤ int16OfBytes b0 b1 ∧ int16OfBytes b0 b1 ≤ 32767 := by
  unfold int16OfBytes
  split <;> omega

/-- All decoded samples of in-range bytes lie in the 16-bit range. -/
theorem bytesToInt16s_range : ∀ l : List ℕ, (∀ b ∈ l, b < 256) →
    ∀ x ∈ bytesToInt16s l, -32768 ≤ x ∧ x ≤ 32767
  | [] => by intro _ x hx; simp [bytesToInt16s_nil] at hx
  | [b] => by intro _ x hx; simp [bytesToInt16s_single] at hx
  | b0 :: b1 :: rest => by
      intro hb x hx
      simp only [bytesToInt16s_cons, List.mem_cons] at hx
      cases hx with
      | inl h =>
          rw [h]
          exact int16OfBytes_range b0 b1 (hb b0 (by simp)) (hb b1 (by simp))
      | inr h =>
          exact bytesToInt16s_range rest (fun b hbm => hb b (by simp [hbm])) x h

/-- C5. Decoding even-length PCM16 bytes to floats (equal rates, so no
resampling) and re-encoding with the `writeWav` conversion reproduces
every 16-bit sample within ±1 least-significant bit. -/
theorem pcm_roundtrip_within_one (bytes : List ℕ) (r : ℚ)
    (heven : bytes.length % 2 = 0) (hb : ∀ b ∈ bytes, b < 256) :
    (fromFloats (convertPCM16ToFloat32 bytes r r)).length =
      (bytesToInt16s bytes).length ∧
    ∀ i, i < (bytesToInt16s bytes).length →
      |(bytesToInt16s bytes).getD i 0 -
        (fromFloats (convertPCM16ToFloat32 bytes r r)).getD i 0| ≤ 1 := by
  have hconv : convertPCM16ToFloat32 bytes r r = pcm16ToFloats bytes := by
    simp [convertPCM16ToFloat32, heven, resampleFloat32]
  have hmap : fromFloats (convertPCM16ToFloat32 bytes r r) =
      (bytesToInt16s bytes).map fun (x : ℤ) =>
        fromFloatSample ((x : ℚ) / 32768) := by
    rw [hconv]
    simp [fromFloats, pcm16ToFloats, List.map_map, Function.comp]
  rw [hmap]
  refine ⟨by simp, ?_⟩
  intro i hi
  have hmem : (bytesToInt16s bytes).get ⟨i, hi⟩ ∈ bytesToInt16s bytes :=
    List.get_mem _ _ _
  obtain ⟨hr1, hr2⟩ := bytesToInt16s_range bytes hb _ hmem
  have hs := roundtrip_sample _ hr1 hr2
  rw [List.getD_eq_getElem _ _ hi,
    List.getD_eq_getElem _ _ (by simpa using hi), List.getElem_map]
  have hg : (bytesToInt16s bytes)[i] = (bytesToInt16s bytes).get ⟨i, hi⟩ := rfl
  rw [hg, abs_le]
  exact ⟨by omega, by omega⟩

/-- Witness for C5 at a concrete input: the two bytes of the sample
0x1234 survive the round trip within one LSB. -/
theorem pcm_roundtrip_within_one_witness :
    |(bytesToInt16s [52, 18]).getD 0 0 -
      (fromFloats (convertPCM16ToFloat32 [52, 18] 3 3)).getD 0 0| ≤ 1 :=
  (pcm_roundtrip_within_one [52, 18] 3 (by decide) (by decide)).2 0 (by decide)

/-! ### Resampler theorems -/

/-- The resampler as the spec words it: output length
`round(inputLength * ratio)` and each output sample the linear
interpolation of the two nearest input samples at fractional source
position `i / ratio`, the upper index clamped to `inputLength - 1`. -/
def resampleSpec (input : List ℚ) (originalRate targetRate : ℚ) : List ℚ :=
  if originalRate = targetRate then input
  else
    let ratio := targetRate / originalRate
    (List.range ((jsRound ((input.length : ℚ) * ratio)).toNat)).map
      fun (i : ℕ) =>
        let pos : ℚ := (i : ℚ) / ratio
        let i0 : ℤ := ⌊pos⌋
        let i1 : ℤ := min (i0 + 1) ((input.length : ℤ) - 1)
        getQ input i0 + (pos - (i0 : ℚ)) * (getQ input i1 - getQ input i0)

/-- The spec scenario's input: the 10-sample ramp `[0, 1, ..., 9] / 9`. -/
def rampTen : List ℚ := (List.range 10).map fun (i : ℕ) => (i : ℚ) / 9

/-- The ramp resampled from 10 Hz to 20 Hz, written out. -/
def rampTwenty : List ℚ :=
  [0, 1/18, 1/9, 1/6, 2/9, 5/18, 1/3, 7/18, 4/9, 1/2,
   5/9, 11/18, 2/3, 13/18, 7/9, 5/6, 8/9, 17/18, 1, 1]

unseal Rat.add Rat.mul Rat.inv Rat.sub in
/-- Resampling the ramp from 10 Hz to 20 Hz, evaluated. -/
theorem resample_rampTen_eval : resampleFloat32 rampTen 10 20 = rampTwenty := by
  decide

unseal Rat.add Rat.mul Rat.inv Rat.sub in
/-- C6. Equal rates return the input unchanged; unequal rates produce
`round(length * ratio)` samples, each the linear interpolation the spec
describes (`resampleSpec`); the 10-sample ramp resampled from 10 Hz to
20 Hz gives 20 monotonically non-decreasing values from `input[0]` to
`input[9]`. -/
theorem resample_linear_spec :
    (∀ (s : List ℚ) (r : ℚ), resampleFloat32 s r r = s) ∧
    (∀ (s : List ℚ) (src tgt : ℚ),
      resampleFloat32 s src tgt = resampleSpec s src tgt) ∧
    (∀ (s : List ℚ) (src tgt : ℚ), src ≠ tgt →
      (resampleFloat32 s src tgt).length =
        (jsRound ((s.length : ℚ) * (tgt / src))).toNat) ∧
    (resampleFloat32 rampTen 10 20).length = 20 ∧
    List.Chain' (· ≤ ·) (resampleFloat32 rampTen 10 20) ∧
    (resampleFloat32 rampTen 10 20).getD 0 0 = rampTen.getD 0 0 ∧
    (resampleFloat32 rampTen 10 20).getD 19 0 = rampTen.getD 9 0 := by
  refine ⟨?_, ?_, ?_, ?_, ?_, ?_, ?_⟩
  · intro s r
    simp [resampleFloat32]
  · intro s src tgt
    by_cases h : src = tgt
    · simp [resampleFloat32, resampleSpec, h]
    · simp only [resampleFloat32, resampleSpec, if_neg h]
      apply List.map_congr_left
      intro i _
      simp only [resampleIndex0, resampleIndex1]
      ring
  · intro s src tgt h
    simp [resampleFloat32, h]
  · rw [resample_rampTen_eval]
    rfl
  · rw [resample_rampTen_eval]
    norm_num [rampTwenty, List.chain'_cons]
  · rw [resample_rampTen_eval]
    decide
  · rw [resample_rampTen_eval]
    decide

/-- Witness for C6 at concrete inputs: identity at equal rates and the
output-length formula at 1 Hz → 2 Hz. -/
theorem resample_linear_spec_witness :
    resampleFloat32 [(5 : ℚ), 7] 3 3 = [(5 : ℚ), 7] ∧
    (resampleFloat32 [(5 : ℚ), 7] 1 2).length =
      (jsRound ((([(5 : ℚ), 7].length : ℕ) : ℚ) * (2 / 1))).toNat :=
  ⟨resample_linear_spec.1 [(5 : ℚ), 7] 3,
    resample_linear_spec.2.2.1 [(5 : ℚ), 7] 1 2 (by decide)⟩

/-- C10. In the unequal-rates branch, with positive rates, every array
read of the interpolation loop is in bounds: for each output index
`i < round(length * ratio)`, both `index0` and `index1` lie in
`[0, length - 1]`, so the out-of-bounds fallback of `getQ` is
unreachable. -/
theorem resample_reads_in_bounds (input : List ℚ) (src tgt : ℚ)
    (hsrc : 0 < src) (htgt : 0 < tgt) (_hne : src ≠ tgt) :
    ∀ i : ℕ, i < (jsRound ((input.length : ℚ) * (tgt / src))).toNat →
      (0 ≤ resampleIndex0 i (tgt / src) ∧
        (resampleIndex0 i (tgt / src)).toNat < input.length) ∧
      0 ≤ resampleIndex1 i (tgt / src) input.length ∧
      (resampleIndex1 i (tgt / src) input.length).toNat < input.length := by
  intro i hi
  have hratio : 0 < tgt / src := div_pos htgt hsrc
  have hiz : (i : ℤ) < jsRound ((input.length : ℚ) * (tgt / src)) :=
    Int.lt_toNat.mp hi
  have hL0 : input.length ≠ 0 := by
    intro h0
    rw [h0] at hiz
    have hj : jsRound (((0 : ℕ) : ℚ) * (tgt / src)) = 0 := by
      norm_num [jsRound]
    rw [hj] at hiz
    omega
  have hL1 : 1 ≤ input.length := Nat.pos_of_ne_zero hL0
  have hfl : (jsRound ((input.length : ℚ) * (tgt / src)) : ℚ) ≤
      (input.length : ℚ) * (tgt / src) + 1 / 2 := by
    simpa [jsRound] using
      Int.floor_le ((input.length : ℚ) * (tgt / src) + 1 / 2)
  have hiq : (i : ℚ) + 1 ≤ (jsRound ((input.length : ℚ) * (tgt / src)) : ℚ) := by
    have : ((i : ℤ) : ℚ) + 1 ≤ (jsRound ((input.length : ℚ) * (tgt / src)) : ℚ) := by
      exact_mod_cast hiz
    simpa using this
  have himul : (i : ℚ) < (input.length : ℚ) * (tgt / src) := by linarith
  have hdiv : (i : ℚ) / (tgt / src) < (input.length : ℚ) :=
    (div_lt_iff hratio).mpr himul
  have h0le : 0 ≤ resampleIndex0 i (tgt / src) :=
    Int.floor_nonneg.mpr (by positivity)
  have h0lt : resampleIndex0 i (tgt / src) < (input.length : ℤ) :=
    Int.floor_lt.mpr (by exact_mod_cast hdiv)
  refine ⟨⟨h0le, (Int.toNat_lt h0le).mpr h0lt⟩, ?_, ?_⟩
  · refine le_min (by omega) (by omega)
  · have h1lt : resampleIndex1 i (tgt / src) input.length <
        (input.length : ℤ) :=
      lt_of_le_of_lt (min_le_right _ _) (by omega)
    have h1le : 0 ≤ resampleIndex1 i (tgt / src) input.length :=
      le_min (by omega) (by omega)
    exact (Int.toNat_lt h1le).mpr h1lt

unseal Rat.add Rat.mul Rat.inv Rat.sub in
/-- Witness for C10 at a concrete input: resampling three samples from
1 Hz to 2 Hz, output index 4 reads in bounds. -/
theorem resample_reads_in_bounds_witness :
    (0 ≤ resampleIndex0 4 ((2 : ℚ) / 1) ∧
      (resampleIndex0 4 ((2 : ℚ) / 1)).toNat < [(1 : ℚ), 2, 3].length) ∧
    0 ≤ resampleIndex1 4 ((2 : ℚ) / 1) [(1 : ℚ), 2, 3].length ∧
    (resampleIndex1 4 ((2 : ℚ) / 1) [(1 : ℚ), 2, 3].length).toNat <
      [(1 : ℚ), 2, 3].length :=
  resample_reads_in_bounds [(1 : ℚ), 2, 3] 1 2 (by norm_num) (by norm_num)
    (by norm_num) 4 (by decide)

end AudioPipeline
